import Mathlib

/-!
# Verification of the barcode-api code subsystem

A shallow embedding of the validation, normalization, deduplication,
batch-parsing and unique-artifact-naming functions of `app.py`, together
with proofs of the specified properties.

Strings are modeled as lists of Unicode code points (`List Nat`), the way
Python treats `str` as a sequence of code points; the character classes of
the patterns in `app.py` are ASCII, and the ASCII semantics of
`str.upper`/`str.strip` is embedded.  The filesystem directory used by
`unique_path` is modeled as the list of names existing in it; the external
barcode renderer and the PNG bytes are opaque and outside the model.
-/

namespace BarcodeApi

/-- A Python string: a sequence of Unicode code points. -/
abbrev Str := List Nat

/-- Code points of a Lean string literal, for writing concrete inputs. -/
def strL (s : String) : Str := s.data.map (fun c => c.toNat)

/-! ## Character classes (ASCII, as used by the patterns in `app.py`) -/

/-- ASCII decimal digit, the `\d` of `CODE_PATTERN` on ASCII input. -/
def isDigitCh (c : Nat) : Bool := decide (48 ≤ c ∧ c ≤ 57)

/-- The class `[A-Z]` of `CODE_PATTERN`. -/
def isUpperCh (c : Nat) : Bool := decide (65 ≤ c ∧ c ≤ 90)

/-- The class `[a-z]`. -/
def isLowerCh (c : Nat) : Bool := decide (97 ≤ c ∧ c ≤ 122)

/-- The class `[A-Za-z0-9._-]` of `sanitize` (46 `.`, 95 `_`, 45 `-`). -/
def isSafeCh (c : Nat) : Bool :=
  isUpperCh c || isLowerCh c || isDigitCh c || decide (c = 46 ∨ c = 95 ∨ c = 45)

/-- ASCII whitespace stripped by `str.strip()`:
space, tab, newline, carriage return, vertical tab, form feed. -/
def isSpaceCh (c : Nat) : Bool :=
  decide (c = 32 ∨ c = 9 ∨ c = 10 ∨ c = 13 ∨ c = 11 ∨ c = 12)

/-- The class `[,\r\n]` that `_parse_codes` splits the blob on. -/
def isDelimCh (c : Nat) : Bool := decide (c = 44 ∨ c = 13 ∨ c = 10)

/-- `str.upper()` on an ASCII code point. -/
def toUpperCh (c : Nat) : Nat := if 97 ≤ c ∧ c ≤ 122 then c - 32 else c

/-- Convenient names for the literal code points appearing in the code. -/
def dashCh : Nat := 45

/-- The code point of `/`. -/
def slashCh : Nat := 47

/-- The code point of `_`. -/
def uscoreCh : Nat := 95

/-- The code point of `I`. -/
def chI : Nat := 73

/-- The code point of `C`. -/
def chC : Nat := 67

/-! ## Normalization: `(c or "").upper().strip()` -/

/-- `str.strip()`: drop leading and trailing whitespace. -/
def stripWs (l : Str) : Str :=
  ((l.dropWhile isSpaceCh).reverse.dropWhile isSpaceCh).reverse

/-- The normalization `(c or "").upper().strip()` applied by
`_validate_code` and by the loop of `_parse_codes`. -/
def normalizeCode (c : Str) : Str := stripWs (c.map toUpperCh)

/-! ## The anchored grammar `^(I|C)-[A-Z]+-\d+/\d{2}$`

`CODE_PATTERN.match` is embedded as a structural matcher.  Each
alternative is deterministic because the follow characters `-` and `/`
are outside the preceding classes, so the matcher needs no backtracking. -/

/-- Matches `\d{2}$`: exactly two digits, end of string. -/
def matchYear : Str → Bool
  | [a, b] => isDigitCh a && isDigitCh b
  | _ => false

/-- After at least one digit of `\d+`: more digits, then `/` and the year. -/
def matchNumRest : Str → Bool
  | [] => false
  | c :: rest => if c = slashCh then matchYear rest else isDigitCh c && matchNumRest rest

/-- Matches `\d+/\d{2}$`. -/
def matchNum : Str → Bool
  | [] => false
  | c :: rest => isDigitCh c && matchNumRest rest

/-- After at least one letter of `[A-Z]+`: more letters, then `-` and the number. -/
def matchSeriesRest : Str → Bool
  | [] => false
  | c :: rest => if c = dashCh then matchNum rest else isUpperCh c && matchSeriesRest rest

/-- Matches `[A-Z]+-\d+/\d{2}$`. -/
def matchSeries : Str → Bool
  | [] => false
  | c :: rest => isUpperCh c && matchSeriesRest rest

/-- `CODE_PATTERN.match(cc)` of `app.py` (anchored at both ends; the
normalized string is stripped, so the trailing-newline latitude of `$`
cannot arise). -/
def codePatternMatch : Str → Bool
  | p :: d :: rest => (p = chI || p = chC) && d = dashCh && matchSeries rest
  | _ => false

/-- `_validate_code` of `app.py`: normalize, then test the pattern; on
mismatch raise `HTTPException(400, "Invalid code: {cc}")`, modeled as
`Except.error` carrying the normalized string. -/
def validate_code (c : Str) : Except Str Str :=
  let cc := normalizeCode c
  if codePatternMatch cc then .ok cc else .error cc

/-! ## `sanitize` -/

/-- One pass of `re.sub(r'[^A-Za-z0-9._-]+', '_', name)`: the flag records
whether the previous character was inside an unsafe run (in which case the
replacement `_` has already been emitted). -/
def subUnsafeGo : Bool → Str → Str
  | _, [] => []
  | inRun, c :: rest =>
    if isSafeCh c then c :: subUnsafeGo false rest
    else if inRun then subUnsafeGo true rest
    else uscoreCh :: subUnsafeGo true rest

/-- `str.strip(t)`: drop the character `t` from both ends. -/
def stripChar (t : Nat) (l : Str) : Str :=
  ((l.dropWhile (fun c => c == t)).reverse.dropWhile (fun c => c == t)).reverse

/-- The fallback literal `"code"`. -/
def codeWord : Str := [99, 111, 100, 101]

/-- `sanitize` of `app.py`:
`re.sub(r'[^A-Za-z0-9._-]+', '_', name).strip('_')`, with `"code"` as
fallback for an empty result (`s or "code"`). -/
def sanitize (name : Str) : Str :=
  let s := stripChar uscoreCh (subUnsafeGo false name)
  if s.isEmpty then codeWord else s

/-! ## `unique_path`

The directory is the list of file names existing in it; a candidate
`dirpath / f"{base_name}{ext}"` is identified by its name.  The unbounded
`while True` loop of the source is embedded with explicit fuel; the
termination theorem (claim C10) shows fuel `|fs| + 1` always reaches a
free candidate, so the fuel-exhausted branch is dead code. -/

/-- Decimal rendering of a positive number, with fuel (`fuel ≥ n` is enough). -/
def natStrAux : Nat → Nat → Str
  | 0, _ => []
  | fuel + 1, n => if n = 0 then [] else natStrAux fuel (n / 10) ++ [48 + n % 10]

/-- Decimal rendering `f"{n}"` of a positive `n` (and `[]` at `0`). -/
def natStr (n : Nat) : Str := natStrAux n n

/-- The `i`-th candidate name: `f"{base_name}{ext}"` for `i = 0`,
`f"{base_name}-{i}{ext}"` for `i ≥ 1`. -/
def candName (base ext : Str) (i : Nat) : Str :=
  if i = 0 then base ++ ext else base ++ (dashCh :: natStr i) ++ ext

/-- The probe loop of `unique_path`, with fuel: returns the first
candidate, from index `i` on, that does not exist in `fs`; `none` when
the fuel runs out first. -/
def probeAux (fs : List Str) (base ext : Str) : Nat → Nat → Option Str
  | 0, _ => none
  | fuel + 1, i =>
    if candName base ext i ∈ fs then probeAux fs base ext fuel (i + 1)
    else some (candName base ext i)

/-- `unique_path` of `app.py`: probe `{base}{ext}`, `{base}-1{ext}`,
`{base}-2{ext}`, … and return the first name not existing in `fs`.
Fuel `|fs| + 1` suffices (claim C10), so the default is never used. -/
def unique_path (fs : List Str) (base ext : Str) : Str :=
  (probeAux fs base ext (fs.length + 1) 0).getD (candName base ext 0)

/-- The extension `".png"`. -/
def pngExt : Str := [46, 112, 110, 103]

/-- `_make_barcode_bytes` of `app.py`, with the external renderer and the
PNG bytes outside the model: validate, derive the base name, reserve a
unique path, save (the directory gains the name), and report
`save_path.name` together with the new directory state. -/
def make_barcode_bytes (fs : List Str) (data : Str) :
    Except Str (Str × List Str) :=
  match validate_code data with
  | .error e => .error e
  | .ok cc =>
    let fname_base := sanitize cc
    let save_path := unique_path fs fname_base pngExt
    .ok (save_path, save_path :: fs)

/-! ## `_parse_codes` -/

/-- The three `HTTPException(400, …)` failures of `_parse_codes`. -/
inductive ParseErr where
  | noCodesProvided : ParseErr
  | invalidCodesInBatch : List Str → ParseErr
  | noValidCodes : ParseErr
deriving DecidableEq

/-- `re.split(r'[,\r\n]+', s)`: split on maximal runs of comma, carriage
return and newline; the flag records being inside a delimiter run. -/
def splitGo (inRun : Bool) (acc : Str) : Str → List Str
  | [] => [acc.reverse]
  | c :: rest =>
    if isDelimCh c then
      if inRun then splitGo true acc rest
      else acc.reverse :: splitGo true [] rest
    else splitGo false (c :: acc) rest

/-- `re.split(r'[,\r\n]+', s)` of `app.py`. -/
def splitDelim (s : Str) : List Str := splitGo false [] s

/-- The list `out` of `_parse_codes`: the repeated `code` values (absent
or empty lists contribute nothing, as with Python truthiness), followed by
the blob parts that are non-empty and not whitespace-only
(`p and p.strip()`). -/
def outList (ps : Option (List Str)) (blob : Option Str) : List Str :=
  (match ps with | none => [] | some l => l) ++
  (match blob with
   | none => []
   | some b =>
     if b.isEmpty then []
     else (splitDelim b).filter (fun q => !q.isEmpty && !(stripWs q).isEmpty))

/-- The validate-and-normalize loop of `_parse_codes`, carrying the `norm`
and `bad` accumulators: skip a blank normalization, append an invalid one
to `bad`, append a valid unseen one to `norm`. -/
def parseLoop : List Str → List Str → List Str → List Str × List Str
  | [], norm, bad => (norm, bad)
  | c :: rest, norm, bad =>
    let cc := normalizeCode c
    if cc.isEmpty then parseLoop rest norm bad
    else if !codePatternMatch cc then parseLoop rest norm (bad ++ [cc])
    else if cc ∈ norm then parseLoop rest norm bad
    else parseLoop rest (norm ++ [cc]) bad

/-- `_parse_codes` of `app.py`. -/
def parse_codes (ps : Option (List Str)) (blob : Option Str) :
    Except ParseErr (List Str) :=
  let out := outList ps blob
  if out.isEmpty then .error .noCodesProvided
  else
    let nb := parseLoop out [] []
    if !nb.2.isEmpty then .error (.invalidCodesInBatch nb.2)
    else if nb.1.isEmpty then .error .noValidCodes
    else .ok nb.1

/-! ## Spec-side reference definitions

These definitions follow the words of the specification (and of the
claims), independently of the executable embeddings above; refinement
theorems below compare the two. -/

/-- The language of the anchored grammar `^(I|C)-[A-Z]+-\d+/\d{2}$`,
stated as an explicit decomposition, following the spec's words. -/
def SpecGrammar (s : Str) : Prop :=
  ∃ p ser num y1 y2,
    s = p :: dashCh :: (ser ++ dashCh :: (num ++ slashCh :: [y1, y2])) ∧
    (p = chI ∨ p = chC) ∧
    ser ≠ [] ∧ (∀ c ∈ ser, isUpperCh c = true) ∧
    num ≠ [] ∧ (∀ c ∈ num, isDigitCh c = true) ∧
    isDigitCh y1 = true ∧ isDigitCh y2 = true

/-- The spec's replacement step, worded directly: a safe character is
kept, and a maximal run of unsafe characters (the character and the
following unsafe ones) becomes a single underscore. -/
def subRuns : Str → Str
  | [] => []
  | c :: rest =>
    if isSafeCh c then c :: subRuns rest
    else uscoreCh :: subRuns (rest.dropWhile (fun d => !isSafeCh d))
termination_by l => l.length
decreasing_by
  · simp only [List.length_cons]
    omega
  · simp only [List.length_cons]
    have h := congrArg List.length
      (List.takeWhile_append_dropWhile (fun d => !isSafeCh d) rest)
    rw [List.length_append] at h
    omega

/-- The reference definition of claim C7: replace every maximal unsafe
run by one underscore, strip underscores from both ends, fall back to
the literal `"code"` when empty. -/
def sanitizeSpec (name : Str) : Str :=
  let s := stripChar uscoreCh (subRuns name)
  if s.isEmpty then codeWord else s

/-- Order-preserving deduplication against an accumulator of values
already seen (first occurrence wins). -/
def dedupFrom (seen : List Str) : List Str → List Str
  | [] => []
  | x :: rest =>
    if x ∈ seen then dedupFrom seen rest
    else x :: dedupFrom (seen ++ [x]) rest

/-- The candidate list as the claims word it: the repeated values
followed by the blob split on any run of comma/CR/LF characters (before
any blank filtering). -/
def rawCandidates (ps : Option (List Str)) (blob : Option Str) : List Str :=
  (match ps with | none => [] | some l => l) ++
  (match blob with | none => [] | some b => splitDelim b)

/-- A candidate that is kept: non-blank normalization that matches the
grammar. -/
def isKeptValid (c : Str) : Bool :=
  !(normalizeCode c).isEmpty && codePatternMatch (normalizeCode c)

/-- An offending candidate: non-blank normalization failing the grammar. -/
def isBadCand (c : Str) : Bool :=
  !(normalizeCode c).isEmpty && !codePatternMatch (normalizeCode c)

/-- The normalized valid candidates, in order, with multiplicity. -/
def validNorms (l : List Str) : List Str :=
  (l.filter isKeptValid).map normalizeCode

/-- The normalized offending candidates, in order, with multiplicity. -/
def badNorms (l : List Str) : List Str :=
  (l.filter isBadCand).map normalizeCode

/-- The batch the claims describe on success: normalized valid candidates
in order of first appearance, deduplicated by value. -/
def refBatch (ps : Option (List Str)) (blob : Option Str) : List Str :=
  dedupFrom [] (validNorms (rawCandidates ps blob))

/-! ## Helper lemmas on lists -/

/-- Dropping a satisfying run never lengthens a list. -/
theorem length_dropWhile_le (p : Nat → Bool) (l : Str) :
    (l.dropWhile p).length ≤ l.length := by
  have h := congrArg List.length (List.takeWhile_append_dropWhile p l)
  rw [List.length_append] at h
  omega

/-- Members of the dropped-prefix remainder are members of the list. -/
theorem mem_of_mem_dropWhile (p : Nat → Bool) (l : Str) (a : Nat)
    (h : a ∈ l.dropWhile p) : a ∈ l := by
  rw [← List.takeWhile_append_dropWhile p l]
  exact List.mem_append_right _ h

/-! ## Decimal rendering and the candidate-name family -/

/-- The fuel of `natStrAux` is irrelevant once it is at least the number. -/
theorem natStrAux_stable :
    ∀ n f1 f2 : Nat, n ≤ f1 → n ≤ f2 → natStrAux f1 n = natStrAux f2 n := by
  intro n
  induction n using Nat.strong_induction_on with
  | _ n ih =>
    intro f1 f2 h1 h2
    match n, f1, f2 with
    | 0, 0, 0 => rfl
    | 0, 0, _ + 1 => simp [natStrAux]
    | 0, _ + 1, 0 => simp [natStrAux]
    | 0, _ + 1, _ + 1 => simp [natStrAux]
    | m + 1, g1 + 1, g2 + 1 =>
      simp only [natStrAux, if_neg (Nat.succ_ne_zero m)]
      have hdiv : (m + 1) / 10 < m + 1 := Nat.div_lt_self (Nat.succ_pos m) (by omega)
      rw [ih ((m + 1) / 10) hdiv g1 g2 (by omega) (by omega)]

/-- Unfolding of `natStr` at a positive number. -/
theorem natStr_pos (n : Nat) (h : n ≠ 0) :
    natStr n = natStr (n / 10) ++ [48 + n % 10] := by
  obtain ⟨m, rfl⟩ : ∃ m, n = m + 1 := ⟨n - 1, by omega⟩
  show natStrAux (m + 1) (m + 1) = _
  simp only [natStrAux, if_neg (Nat.succ_ne_zero m)]
  have hdiv : (m + 1) / 10 < m + 1 := Nat.div_lt_self (Nat.succ_pos m) (by omega)
  rw [natStrAux_stable ((m + 1) / 10) m ((m + 1) / 10) (by omega) (le_refl _)]
  rfl

/-- A positive number renders to a non-empty digit string. -/
theorem natStr_ne_nil (n : Nat) (h : n ≠ 0) : natStr n ≠ [] := by
  rw [natStr_pos n h]
  simp

/-- Decimal rendering is injective. -/
theorem natStr_inj : ∀ m n : Nat, natStr m = natStr n → m = n := by
  intro m
  induction m using Nat.strong_induction_on with
  | _ m ih =>
    intro n h
    by_cases hm : m = 0
    · by_cases hn : n = 0
      · omega
      · subst hm
        exact absurd h.symm (natStr_ne_nil n hn)
    · by_cases hn : n = 0
      · subst hn
        exact absurd h (natStr_ne_nil m hm)
      · rw [natStr_pos m hm, natStr_pos n hn] at h
        have hr := congrArg List.reverse h
        simp only [List.reverse_append, List.reverse_cons, List.reverse_nil,
          List.nil_append, List.singleton_append, List.cons.injEq] at hr
        obtain ⟨hd, ht⟩ := hr
        have hrec : m / 10 = n / 10 :=
          ih (m / 10) (Nat.div_lt_self (by omega) (by omega)) (n / 10)
            (List.reverse_injective ht)
        omega

/-- Unfolding of `candName` at index `0`. -/
theorem candName_zero (base ext : Str) : candName base ext 0 = base ++ ext := by
  simp [candName]

/-- Unfolding of `candName` at a positive index. -/
theorem candName_pos (base ext : Str) (k : Nat) (hk : k ≠ 0) :
    candName base ext k = base ++ (dashCh :: natStr k) ++ ext := by
  simp [candName, hk]

/-- Distinct probe indices produce distinct candidate names. -/
theorem candName_inj (base ext : Str) :
    ∀ i j : Nat, candName base ext i = candName base ext j → i = j := by
  have hlen : ∀ k : Nat, k ≠ 0 →
      (base ++ ext).length < (base ++ (dashCh :: natStr k) ++ ext).length := by
    intro k hk
    have h1 : natStr k ≠ [] := natStr_ne_nil k hk
    have h2 : 0 < (natStr k).length := List.length_pos.mpr h1
    simp only [List.length_append, List.length_cons]
    omega
  intro i j h
  by_cases hi : i = 0
  · by_cases hj : j = 0
    · omega
    · subst hi
      rw [candName_zero, candName_pos base ext j hj] at h
      exact absurd (congrArg List.length h) (by have := hlen j hj; omega)
  · by_cases hj : j = 0
    · subst hj
      rw [candName_zero, candName_pos base ext i hi] at h
      exact absurd (congrArg List.length h) (by have := hlen i hi; omega)
    · rw [candName_pos base ext i hi, candName_pos base ext j hj] at h
      have h1 := List.append_cancel_left (List.append_cancel_right h)
      rw [List.cons.injEq] at h1
      exact natStr_inj i j h1.2

/-- Pigeonhole: among any `|fs| + 1` consecutive candidates, one is free. -/
theorem exists_free_candidate (fs : List Str) (base ext : Str) (i : Nat) :
    ∃ j, i ≤ j ∧ j < i + fs.length + 1 ∧ candName base ext j ∉ fs := by
  by_contra hcon
  push_neg at hcon
  have hinj : Function.Injective (fun k => candName base ext (i + k)) := by
    intro a b hab
    have := candName_inj base ext (i + a) (i + b) hab
    omega
  have hsub : (Finset.range (fs.length + 1)).image
      (fun k => candName base ext (i + k)) ⊆ fs.toFinset := by
    intro x hx
    rw [Finset.mem_image] at hx
    obtain ⟨k, hk, rfl⟩ := hx
    rw [Finset.mem_range] at hk
    exact List.mem_toFinset.mpr (hcon (i + k) (by omega) (by omega))
  have hcard := Finset.card_le_card hsub
  rw [Finset.card_image_of_injective _ hinj, Finset.card_range] at hcard
  have := fs.toFinset_card_le
  omega

/-- The probe loop, given enough fuel to reach a free candidate, returns
the first free candidate at or after its start index. -/
theorem probeAux_spec (fs : List Str) (base ext : Str) :
    ∀ fuel i, (∃ j, i ≤ j ∧ j < i + fuel ∧ candName base ext j ∉ fs) →
      ∃ j, i ≤ j ∧ probeAux fs base ext fuel i = some (candName base ext j) ∧
        candName base ext j ∉ fs ∧
        ∀ k, i ≤ k → k < j → candName base ext k ∈ fs := by
  intro fuel
  induction fuel with
  | zero =>
    intro i h
    obtain ⟨j, h1, h2, _⟩ := h
    omega
  | succ fuel ih =>
    intro i h
    obtain ⟨j, hij, hlt, hfree⟩ := h
    by_cases hmem : candName base ext i ∈ fs
    · have hji : j ≠ i := by
        rintro rfl
        exact hfree hmem
      obtain ⟨j', h1, h2, h3, h4⟩ := ih (i + 1) ⟨j, by omega, by omega, hfree⟩
      refine ⟨j', by omega, ?_, h3, ?_⟩
      · simp only [probeAux, if_pos hmem]
        exact h2
      · intro k hk1 hk2
        by_cases hki : k = i
        · exact hki ▸ hmem
        · exact h4 k (by omega) hk2
    · exact ⟨i, le_refl i, by simp only [probeAux, if_neg hmem], hmem,
        fun k hk1 hk2 => by omega⟩

/-- `unique_path` returns the first free candidate; all earlier candidates
exist in the directory. -/
theorem unique_path_spec (fs : List Str) (base ext : Str) :
    ∃ j, unique_path fs base ext = candName base ext j ∧
      candName base ext j ∉ fs ∧ ∀ k, k < j → candName base ext k ∈ fs := by
  obtain ⟨j, hj0, hsome, hfree, hall⟩ :=
    probeAux_spec fs base ext (fs.length + 1) 0
      (by
        obtain ⟨j, h1, h2, h3⟩ := exists_free_candidate fs base ext 0
        exact ⟨j, h1, by omega, h3⟩)
  exact ⟨j, by rw [unique_path, hsome]; rfl, hfree,
    fun k hk => hall k (Nat.zero_le k) hk⟩

/-! ## Claim C5 and claim C10 -/

/-- Claim C5: for every directory state (the list of existing names), base
name and extension, `unique_path` returns a path that does not exist at
call time, and that path is the first member of the candidate sequence
`{base}{ext}`, `{base}-1{ext}`, `{base}-2{ext}`, … (probed in increasing
order) that does not exist.  In particular, with `x.png` and `x-1.png`
existing, the reserve for base `x` returns `x-2.png`. -/
theorem claim_C5 :
    (∀ (fs : List Str) (base ext : Str),
      unique_path fs base ext ∉ fs ∧
      ∃ i, unique_path fs base ext = candName base ext i ∧
        ∀ j, j < i → candName base ext j ∈ fs) ∧
    unique_path [strL "x.png", strL "x-1.png"] (strL "x") (strL ".png") =
      strL "x-2.png" := by
  constructor
  · intro fs base ext
    obtain ⟨j, heq, hfree, hall⟩ := unique_path_spec fs base ext
    exact ⟨heq ▸ hfree, j, heq, hall⟩
  · rfl

/-- Closed instance of claim C5, at a concrete directory. -/
theorem claim_C5_witness :
    unique_path [strL "x.png", strL "x-1.png"] (strL "x") (strL ".png") ∉
      [strL "x.png", strL "x-1.png"] :=
  (claim_C5.1 [strL "x.png", strL "x-1.png"] (strL "x") (strL ".png")).1

/-- Claim C10: the probe loop of `unique_path` terminates on every finite
directory state: within `|fs| + 1` steps it reaches a candidate that does
not exist and returns it (the fuel embedding never exhausts, so the
fallback of `unique_path` is dead code). -/
theorem claim_C10 :
    ∀ (fs : List Str) (base ext : Str),
      ∃ i, i ≤ fs.length ∧
        probeAux fs base ext (fs.length + 1) 0 = some (candName base ext i) ∧
        candName base ext i ∉ fs ∧
        unique_path fs base ext = candName base ext i := by
  intro fs base ext
  obtain ⟨j, hj0, hsome, hfree, hall⟩ :=
    probeAux_spec fs base ext (fs.length + 1) 0
      (by
        obtain ⟨j, h1, h2, h3⟩ := exists_free_candidate fs base ext 0
        exact ⟨j, h1, by omega, h3⟩)
  refine ⟨j, ?_, hsome, hfree, by rw [unique_path, hsome]; rfl⟩
  by_contra hgt
  push_neg at hgt
  have hinj : Function.Injective (fun k => candName base ext k) := by
    intro a b hab
    exact candName_inj base ext a b hab
  have hsub : (Finset.range j).image (fun k => candName base ext k) ⊆
      fs.toFinset := by
    intro x hx
    rw [Finset.mem_image] at hx
    obtain ⟨k, hk, rfl⟩ := hx
    rw [Finset.mem_range] at hk
    exact List.mem_toFinset.mpr (hall k (Nat.zero_le k) hk)
  have hcard := Finset.card_le_card hsub
  rw [Finset.card_image_of_injective _ hinj, Finset.card_range] at hcard
  have := fs.toFinset_card_le
  omega

/-! ## The declarative grammar and its equivalence with the matcher

`SpecGrammar` states membership in the language of
`^(I|C)-[A-Z]+-\d+/\d{2}$` the way the spec words it: an explicit
decomposition into prefix letter, series, number and two-digit year.  It
is defined independently of the executable matcher and then proved
equivalent to it. -/

/-- A digit is not the slash character. -/
theorem isDigitCh_ne_slash (c : Nat) (h : isDigitCh c = true) : c ≠ slashCh := by
  simp only [isDigitCh, decide_eq_true_eq] at h
  simp only [slashCh]
  omega

/-- An uppercase letter is not the dash character. -/
theorem isUpperCh_ne_dash (c : Nat) (h : isUpperCh c = true) : c ≠ dashCh := by
  simp only [isUpperCh, decide_eq_true_eq] at h
  simp only [dashCh]
  omega

/-- `matchYear` accepts exactly two digits. -/
theorem matchYear_iff (l : Str) :
    matchYear l = true ↔
      ∃ y1 y2, l = [y1, y2] ∧ isDigitCh y1 = true ∧ isDigitCh y2 = true := by
  cases l with
  | nil => simp [matchYear]
  | cons a t =>
    cases t with
    | nil => simp [matchYear]
    | cons b t2 =>
      cases t2 with
      | nil =>
        simp only [matchYear, Bool.and_eq_true]
        constructor
        · rintro ⟨h1, h2⟩
          exact ⟨a, b, rfl, h1, h2⟩
        · rintro ⟨y1, y2, heq, h1, h2⟩
          rw [List.cons.injEq, List.cons.injEq] at heq
          obtain ⟨rfl, rfl, -⟩ := heq
          exact ⟨h1, h2⟩
      | cons c t3 => simp [matchYear]

/-- `matchNumRest` accepts a digit run followed by `/` and two digits. -/
theorem matchNumRest_iff (l : Str) :
    matchNumRest l = true ↔
      ∃ ds y1 y2, l = ds ++ slashCh :: [y1, y2] ∧
        (∀ c ∈ ds, isDigitCh c = true) ∧
        isDigitCh y1 = true ∧ isDigitCh y2 = true := by
  induction l with
  | nil =>
    constructor
    · intro h
      exact absurd h (by decide)
    · rintro ⟨ds, y1, y2, heq, -⟩
      have hlen := congrArg List.length heq
      rw [List.length_nil, List.length_append, List.length_cons,
        List.length_cons, List.length_cons, List.length_nil] at hlen
      omega
  | cons c rest ih =>
    by_cases hc : c = slashCh
    · subst hc
      rw [matchNumRest, if_pos rfl, matchYear_iff]
      constructor
      · rintro ⟨y1, y2, rfl, h1, h2⟩
        exact ⟨[], y1, y2, rfl, by simp, h1, h2⟩
      · rintro ⟨ds, y1, y2, heq, hds, h1, h2⟩
        cases ds with
        | nil =>
          rw [List.nil_append, List.cons.injEq] at heq
          exact ⟨y1, y2, heq.2, h1, h2⟩
        | cons d ds2 =>
          rw [List.cons_append, List.cons.injEq] at heq
          exact absurd heq.1.symm
            (isDigitCh_ne_slash d (hds d (List.mem_cons_self d ds2)))
    · rw [matchNumRest, if_neg hc, Bool.and_eq_true, ih]
      constructor
      · rintro ⟨hd, ds, y1, y2, rfl, hds, h1, h2⟩
        refine ⟨c :: ds, y1, y2, rfl, ?_, h1, h2⟩
        intro x hx
        rcases List.mem_cons.mp hx with rfl | hx2
        · exact hd
        · exact hds x hx2
      · rintro ⟨ds, y1, y2, heq, hds, h1, h2⟩
        cases ds with
        | nil =>
          rw [List.nil_append, List.cons.injEq] at heq
          exact absurd heq.1 hc
        | cons d ds2 =>
          rw [List.cons_append, List.cons.injEq] at heq
          obtain ⟨rfl, rfl⟩ := heq
          exact ⟨hds c (List.mem_cons_self c ds2), ds2, y1, y2, rfl,
            fun x hx => hds x (List.mem_cons_of_mem c hx), h1, h2⟩

/-- `matchNum` accepts `\d+/\d{2}$`. -/
theorem matchNum_iff (l : Str) :
    matchNum l = true ↔
      ∃ num y1 y2, l = num ++ slashCh :: [y1, y2] ∧ num ≠ [] ∧
        (∀ c ∈ num, isDigitCh c = true) ∧
        isDigitCh y1 = true ∧ isDigitCh y2 = true := by
  cases l with
  | nil =>
    constructor
    · intro h
      exact absurd h (by decide)
    · rintro ⟨num, y1, y2, heq, -⟩
      have hlen := congrArg List.length heq
      rw [List.length_nil, List.length_append, List.length_cons,
        List.length_cons, List.length_cons, List.length_nil] at hlen
      omega
  | cons c rest =>
    rw [matchNum, Bool.and_eq_true, matchNumRest_iff]
    constructor
    · rintro ⟨hd, ds, y1, y2, rfl, hds, h1, h2⟩
      refine ⟨c :: ds, y1, y2, rfl, by simp, ?_, h1, h2⟩
      intro x hx
      rcases List.mem_cons.mp hx with rfl | hx2
      · exact hd
      · exact hds x hx2
    · rintro ⟨num, y1, y2, heq, hne, hnum, h1, h2⟩
      cases num with
      | nil => exact absurd rfl hne
      | cons d ds2 =>
        rw [List.cons_append, List.cons.injEq] at heq
        obtain ⟨rfl, rfl⟩ := heq
        exact ⟨hnum c (List.mem_cons_self c ds2), ds2, y1, y2, rfl,
          fun x hx => hnum x (List.mem_cons_of_mem c hx), h1, h2⟩

/-- `matchSeriesRest` accepts a letter run, `-`, and a number part. -/
theorem matchSeriesRest_iff (l : Str) :
    matchSeriesRest l = true ↔
      ∃ ser rest2, l = ser ++ dashCh :: rest2 ∧
        (∀ c ∈ ser, isUpperCh c = true) ∧ matchNum rest2 = true := by
  induction l with
  | nil =>
    constructor
    · intro h
      exact absurd h (by decide)
    · rintro ⟨ser, rest2, heq, -⟩
      have hlen := congrArg List.length heq
      rw [List.length_nil, List.length_append, List.length_cons] at hlen
      omega
  | cons c rest ih =>
    by_cases hc : c = dashCh
    · subst hc
      rw [matchSeriesRest, if_pos rfl]
      constructor
      · intro h
        exact ⟨[], rest, rfl, by simp, h⟩
      · rintro ⟨ser, rest2, heq, hser, hnum⟩
        cases ser with
        | nil =>
          rw [List.nil_append, List.cons.injEq] at heq
          exact heq.2 ▸ hnum
        | cons d ds2 =>
          rw [List.cons_append, List.cons.injEq] at heq
          exact absurd heq.1.symm
            (isUpperCh_ne_dash d (hser d (List.mem_cons_self d ds2)))
    · rw [matchSeriesRest, if_neg hc, Bool.and_eq_true, ih]
      constructor
      · rintro ⟨hu, ser, rest2, rfl, hser, hnum⟩
        refine ⟨c :: ser, rest2, rfl, ?_, hnum⟩
        intro x hx
        rcases List.mem_cons.mp hx with rfl | hx2
        · exact hu
        · exact hser x hx2
      · rintro ⟨ser, rest2, heq, hser, hnum⟩
        cases ser with
        | nil =>
          rw [List.nil_append, List.cons.injEq] at heq
          exact absurd heq.1 hc
        | cons d ds2 =>
          rw [List.cons_append, List.cons.injEq] at heq
          obtain ⟨rfl, rfl⟩ := heq
          exact ⟨hser c (List.mem_cons_self c ds2), ds2, rest2, rfl,
            fun x hx => hser x (List.mem_cons_of_mem c hx), hnum⟩

/-- `matchSeries` accepts `[A-Z]+-\d+/\d{2}$`. -/
theorem matchSeries_iff (l : Str) :
    matchSeries l = true ↔
      ∃ ser rest2, l = ser ++ dashCh :: rest2 ∧ ser ≠ [] ∧
        (∀ c ∈ ser, isUpperCh c = true) ∧ matchNum rest2 = true := by
  cases l with
  | nil =>
    constructor
    · intro h
      exact absurd h (by decide)
    · rintro ⟨ser, rest2, heq, -⟩
      have hlen := congrArg List.length heq
      rw [List.length_nil, List.length_append, List.length_cons] at hlen
      omega
  | cons c rest =>
    rw [matchSeries, Bool.and_eq_true, matchSeriesRest_iff]
    constructor
    · rintro ⟨hu, ser, rest2, rfl, hser, hnum⟩
      refine ⟨c :: ser, rest2, rfl, by simp, ?_, hnum⟩
      intro x hx
      rcases List.mem_cons.mp hx with rfl | hx2
      · exact hu
      · exact hser x hx2
    · rintro ⟨ser, rest2, heq, hne, hser, hnum⟩
      cases ser with
      | nil => exact absurd rfl hne
      | cons d ds2 =>
        rw [List.cons_append, List.cons.injEq] at heq
        obtain ⟨rfl, rfl⟩ := heq
        exact ⟨hser c (List.mem_cons_self c ds2), ds2, rest2, rfl,
          fun x hx => hser x (List.mem_cons_of_mem c hx), hnum⟩

/-- The executable matcher decides exactly the declarative grammar. -/
theorem codePatternMatch_iff (s : Str) :
    codePatternMatch s = true ↔ SpecGrammar s := by
  constructor
  · intro h
    match s, h with
    | p :: d :: rest, h =>
      rw [codePatternMatch, Bool.and_eq_true, Bool.and_eq_true] at h
      obtain ⟨⟨hp, hd⟩, hser⟩ := h
      rw [decide_eq_true_eq] at hd
      subst hd
      obtain ⟨ser, rest2, rfl, hne, hserU, hnum⟩ := (matchSeries_iff rest).mp hser
      obtain ⟨num, y1, y2, rfl, hnne, hnumD, h1, h2⟩ := (matchNum_iff rest2).mp hnum
      refine ⟨p, ser, num, y1, y2, rfl, ?_, hne, hserU, hnne, hnumD, h1, h2⟩
      rw [Bool.or_eq_true, decide_eq_true_eq, decide_eq_true_eq] at hp
      exact hp
  · rintro ⟨p, ser, num, y1, y2, rfl, hp, hne, hserU, hnne, hnumD, h1, h2⟩
    rw [codePatternMatch, Bool.and_eq_true, Bool.and_eq_true]
    refine ⟨⟨?_, by simp⟩, ?_⟩
    · rw [Bool.or_eq_true, decide_eq_true_eq, decide_eq_true_eq]
      exact hp
    · rw [matchSeries_iff]
      refine ⟨ser, num ++ slashCh :: [y1, y2], rfl, hne, hserU, ?_⟩
      rw [matchNum_iff]
      exact ⟨num, y1, y2, rfl, hnne, hnumD, h1, h2⟩

/-! ## Claim C1 -/

/-- Claim C1: for every string whose normalization (upper-cased, trimmed)
is in the language of the anchored grammar, `_validate_code` succeeds and
returns exactly the normalized string; for every string whose
normalization is not in the language, it fails with `InvalidCodeFormat`
carrying the normalized string. -/
theorem claim_C1 (s : Str) :
    (SpecGrammar (normalizeCode s) →
      validate_code s = .ok (normalizeCode s)) ∧
    (¬ SpecGrammar (normalizeCode s) →
      validate_code s = .error (normalizeCode s)) := by
  constructor
  · intro h
    have hb : codePatternMatch (normalizeCode s) = true :=
      (codePatternMatch_iff _).mpr h
    simp [validate_code, hb]
  · intro h
    have hb : codePatternMatch (normalizeCode s) = false := by
      rw [← Bool.not_eq_true]
      intro hb
      exact h ((codePatternMatch_iff _).mp hb)
    simp [validate_code, hb]

/-- Closed instances of claim C1: a valid raw string (lower case with
surrounding whitespace) is normalized and accepted; an invalid one (digit
in the series, three-digit year) is rejected with its normalization. -/
theorem claim_C1_witness :
    validate_code (strL " i-mce-169369/25 ") = .ok (strL "I-MCE-169369/25") ∧
    validate_code (strL "I-MC9-1/250") = .error (strL "I-MC9-1/250") := by
  constructor
  · have h := (claim_C1 (strL " i-mce-169369/25 ")).1
    have hn : normalizeCode (strL " i-mce-169369/25 ") =
        strL "I-MCE-169369/25" := rfl
    rw [hn] at h
    exact h ⟨chI, strL "MCE", strL "169369", 50, 53, by decide, Or.inl rfl,
      by decide, by decide, by decide, by decide, by decide, by decide⟩
  · have h := (claim_C1 (strL "I-MC9-1/250")).2
    have hn : normalizeCode (strL "I-MC9-1/250") = strL "I-MC9-1/250" := rfl
    rw [hn] at h
    refine h ?_
    intro hspec
    exact absurd ((codePatternMatch_iff (strL "I-MC9-1/250")).mpr hspec)
      (by decide)

/-! ## Claim C6 -/

/-- Claim C6: the filename reported (and stored) by `_make_barcode_bytes`
is always `{sanitized-code}.png` or `{sanitized-code}-{n}.png` for the
`n`-th collision, `n` starting at 1 (all earlier candidates exist); for
the code `I-MCE-169369/25` on a clean directory the first call stores and
reports `I-MCE-169369_25.png` (the slash sanitized to an underscore) and
a second call without cleanup stores and reports `I-MCE-169369_25-1.png`. -/
theorem claim_C6 :
    (∀ (fs : List Str) (data fname : Str) (fs2 : List Str),
      make_barcode_bytes fs data = .ok (fname, fs2) →
      ∃ n, fname = candName (sanitize (normalizeCode data)) pngExt n ∧
        fname ∉ fs ∧
        (∀ j, j < n → candName (sanitize (normalizeCode data)) pngExt j ∈ fs) ∧
        fs2 = fname :: fs) ∧
    make_barcode_bytes [] (strL "I-MCE-169369/25") =
      .ok (strL "I-MCE-169369_25.png", [strL "I-MCE-169369_25.png"]) ∧
    make_barcode_bytes [strL "I-MCE-169369_25.png"] (strL "I-MCE-169369/25") =
      .ok (strL "I-MCE-169369_25-1.png",
        [strL "I-MCE-169369_25-1.png", strL "I-MCE-169369_25.png"]) := by
  refine ⟨?_, rfl, rfl⟩
  intro fs data fname fs2 h
  by_cases hb : codePatternMatch (normalizeCode data) = true
  · simp only [make_barcode_bytes, validate_code, hb, if_true] at h
    rw [Except.ok.injEq, Prod.mk.injEq] at h
    obtain ⟨rfl, rfl⟩ := h
    obtain ⟨j, heq, hfree, hall⟩ :=
      unique_path_spec fs (sanitize (normalizeCode data)) pngExt
    exact ⟨j, heq, heq ▸ hfree, fun k hk => hall k hk, rfl⟩
  · rw [Bool.not_eq_true] at hb
    simp [make_barcode_bytes, validate_code, hb] at h

/-- Closed instance of the general part of claim C6: the first call on a
clean directory reports the unsuffixed candidate name. -/
theorem claim_C6_witness :
    ∃ n, strL "I-MCE-169369_25.png" =
        candName (sanitize (normalizeCode (strL "I-MCE-169369/25"))) pngExt n ∧
      strL "I-MCE-169369_25.png" ∉ ([] : List Str) ∧
      (∀ j, j < n →
        candName (sanitize (normalizeCode (strL "I-MCE-169369/25"))) pngExt j ∈
          ([] : List Str)) ∧
      [strL "I-MCE-169369_25.png"] = strL "I-MCE-169369_25.png" :: [] :=
  claim_C6.1 [] (strL "I-MCE-169369/25") (strL "I-MCE-169369_25.png")
    [strL "I-MCE-169369_25.png"] rfl

/-! ## Properties of `sanitize` -/

/-- Dropping a satisfying run twice is dropping it once. -/
theorem dropWhile_idem (p : Nat → Bool) (l : Str) :
    (l.dropWhile p).dropWhile p = l.dropWhile p := by
  cases h : l.dropWhile p with
  | nil => rfl
  | cons c t2 =>
    have h2 := List.head?_dropWhile_not p l
    rw [h] at h2
    simp only [List.head?_cons] at h2
    exact List.dropWhile_cons_of_neg (by simp [h2])

/-- Stripping a character from both ends is idempotent. -/
theorem stripChar_idem (t : Nat) (l : Str) :
    stripChar t (stripChar t l) = stripChar t l := by
  have hA0 := List.head?_dropWhile_not (fun c => c == t) l
  rw [stripChar, stripChar]
  generalize hA : l.dropWhile (fun c => c == t) = A at hA0 ⊢
  have hpre : A = (A.reverse.dropWhile (fun c => c == t)).reverse ++
      (A.reverse.takeWhile (fun c => c == t)).reverse := by
    have h := List.takeWhile_append_dropWhile (fun c => c == t) A.reverse
    have h2 := congrArg List.reverse h
    rw [List.reverse_append, List.reverse_reverse] at h2
    exact h2.symm
  have hclaim1 : (A.reverse.dropWhile (fun c => c == t)).reverse.dropWhile
      (fun c => c == t) = (A.reverse.dropWhile (fun c => c == t)).reverse := by
    cases hD : (A.reverse.dropWhile (fun c => c == t)).reverse with
    | nil => rfl
    | cons c t2 =>
      have hAeq : A = c ::
          (t2 ++ (A.reverse.takeWhile (fun c => c == t)).reverse) := by
        conv_lhs => rw [hpre]
        rw [hD, List.cons_append]
      have hc : (c == t) = false := by
        rw [hAeq] at hA0
        simp only [List.head?_cons] at hA0
        exact hA0
      exact List.dropWhile_cons_of_neg (by simp [hc])
  rw [hclaim1, List.reverse_reverse, dropWhile_idem]

/-- Every character of the substitution output is safe (kept characters
were safe, replacements are the safe underscore). -/
theorem mem_subUnsafeGo_safe :
    ∀ (l : Str) (b : Bool) (c : Nat), c ∈ subUnsafeGo b l → isSafeCh c = true := by
  intro l
  induction l with
  | nil =>
    intro b c h
    simp [subUnsafeGo] at h
  | cons d rest ih =>
    intro b c h
    by_cases hd : isSafeCh d = true
    · rw [subUnsafeGo, if_pos hd] at h
      rcases List.mem_cons.mp h with rfl | h2
      · exact hd
      · exact ih false c h2
    · cases b with
      | true =>
        rw [subUnsafeGo, if_neg hd, if_pos rfl] at h
        exact ih true c h
      | false =>
        rw [subUnsafeGo, if_neg hd, if_neg (by simp)] at h
        rcases List.mem_cons.mp h with rfl | h2
        · decide
        · exact ih true c h2

/-- The substitution is the identity on an all-safe string. -/
theorem subUnsafeGo_of_safe :
    ∀ l : Str, (∀ c ∈ l, isSafeCh c = true) → subUnsafeGo false l = l := by
  intro l
  induction l with
  | nil => intro _; rfl
  | cons d rest ih =>
    intro h
    rw [subUnsafeGo, if_pos (h d (List.mem_cons_self d rest))]
    rw [ih (fun c hc => h c (List.mem_cons_of_mem d hc))]

/-- Stripping a character from both ends only removes characters. -/
theorem mem_stripChar (t : Nat) (l : Str) (c : Nat) (h : c ∈ stripChar t l) :
    c ∈ l := by
  rw [stripChar, List.mem_reverse] at h
  have h2 := mem_of_mem_dropWhile _ _ _ h
  rw [List.mem_reverse] at h2
  exact mem_of_mem_dropWhile _ _ _ h2

/-! ## Claim C7 and claim C8 -/

/-- The run-substitution of the source (flag-based single pass) computes
the spec's maximal-run replacement. -/
theorem subUnsafeGo_eq_subRuns :
    ∀ l : Str,
      subUnsafeGo false l = subRuns l ∧
      subUnsafeGo true l = subRuns (l.dropWhile (fun d => !isSafeCh d)) := by
  intro l
  induction l with
  | nil => exact ⟨by simp [subUnsafeGo, subRuns], by simp [subUnsafeGo, subRuns]⟩
  | cons c rest ih =>
    by_cases hc : isSafeCh c = true
    · constructor
      · rw [subUnsafeGo, if_pos hc]
        simp only [subRuns]
        rw [if_pos hc, ih.1]
      · rw [subUnsafeGo, if_pos hc,
          List.dropWhile_cons_of_neg (by simp [hc])]
        simp only [subRuns]
        rw [if_pos hc, ih.1]
    · have hcb : isSafeCh c = false := by
        cases hcc : isSafeCh c with
        | false => rfl
        | true => exact absurd hcc hc
      constructor
      · rw [subUnsafeGo, if_neg hc, if_neg (by simp)]
        simp only [subRuns]
        rw [if_neg hc, ih.2]
      · rw [subUnsafeGo, if_neg hc, if_pos rfl,
          List.dropWhile_cons_of_pos (by simp [hcb])]
        exact ih.2

/-- Claim C7: `sanitize` equals the reference definition — replace every
maximal run of characters outside `[A-Za-z0-9._-]` with a single
underscore, strip leading and trailing underscores, and return the
literal `"code"` when the result is empty; in particular both the empty
string and `"###"` sanitize to `"code"`. -/
theorem claim_C7 :
    (∀ x : Str, sanitize x = sanitizeSpec x) ∧
    sanitize (strL "") = strL "code" ∧
    sanitize (strL "###") = strL "code" := by
  refine ⟨?_, rfl, rfl⟩
  intro x
  simp only [sanitize, sanitizeSpec]
  rw [(subUnsafeGo_eq_subRuns x).1]

/-- Claim C8: `sanitize` is a total function of its string argument (it
is defined by structural recursion and total by construction) and is
idempotent on its own output. -/
theorem claim_C8 : ∀ x : Str, sanitize (sanitize x) = sanitize x := by
  intro x
  by_cases hs : (stripChar uscoreCh (subUnsafeGo false x)).isEmpty = true
  · have h1 : sanitize x = codeWord := by
      simp only [sanitize]
      rw [if_pos hs]
    rw [h1]
    rfl
  · have h1 : sanitize x = stripChar uscoreCh (subUnsafeGo false x) := by
      simp only [sanitize]
      rw [if_neg hs]
    have hsafe : ∀ c ∈ stripChar uscoreCh (subUnsafeGo false x),
        isSafeCh c = true :=
      fun c hc => mem_subUnsafeGo_safe x false c (mem_stripChar _ _ c hc)
    have h2 : subUnsafeGo false (stripChar uscoreCh (subUnsafeGo false x)) =
        stripChar uscoreCh (subUnsafeGo false x) :=
      subUnsafeGo_of_safe _ hsafe
    have h3 := stripChar_idem uscoreCh (subUnsafeGo false x)
    rw [h1]
    simp only [sanitize]
    rw [h2, h3, if_neg hs]

/-! ## Properties of `_parse_codes` -/

/-- Upper-casing maps whitespace to whitespace and non-whitespace to
non-whitespace. -/
theorem isSpaceCh_toUpperCh (c : Nat) : isSpaceCh (toUpperCh c) = isSpaceCh c := by
  rw [toUpperCh]
  split
  · rename_i h
    simp only [isSpaceCh]
    rw [decide_eq_decide]
    omega
  · rfl

/-- Stripping whitespace commutes with upper-casing. -/
theorem stripWs_map_toUpperCh (l : Str) :
    stripWs (l.map toUpperCh) = (stripWs l).map toUpperCh := by
  have hfun : (isSpaceCh ∘ toUpperCh) = isSpaceCh :=
    funext (fun c => isSpaceCh_toUpperCh c)
  simp only [stripWs, List.dropWhile_map, hfun, ← List.map_reverse]

/-- The normalization of a string is blank exactly when the string itself
strips to blank. -/
theorem normalizeCode_isEmpty (c : Str) :
    (normalizeCode c).isEmpty = (stripWs c).isEmpty := by
  rw [normalizeCode, stripWs_map_toUpperCh]
  cases stripWs c <;> simp

/-- The loop of `_parse_codes`: `norm` extends by the deduplicated valid
normalizations, `bad` by the offending normalizations in order and with
multiplicity. -/
theorem parseLoop_spec :
    ∀ (l norm bad : List Str),
      parseLoop l norm bad =
        (norm ++ dedupFrom norm (validNorms l), bad ++ badNorms l) := by
  intro l
  induction l with
  | nil =>
    intro norm bad
    simp [parseLoop, validNorms, badNorms, dedupFrom]
  | cons c rest ih =>
    intro norm bad
    by_cases h1 : (normalizeCode c).isEmpty = true
    · have hk : isKeptValid c = false := by rw [isKeptValid, h1]; rfl
      have hb : isBadCand c = false := by rw [isBadCand, h1]; rfl
      have hv : validNorms (c :: rest) = validNorms rest := by
        rw [validNorms, validNorms, List.filter_cons_of_neg (by simp [hk])]
      have hbn : badNorms (c :: rest) = badNorms rest := by
        rw [badNorms, badNorms, List.filter_cons_of_neg (by simp [hb])]
      simp only [parseLoop]
      rw [if_pos h1, ih, hv, hbn]
    · have h1f : (normalizeCode c).isEmpty = false := by
        cases hh : (normalizeCode c).isEmpty with
        | false => rfl
        | true => exact absurd hh h1
      by_cases h2 : codePatternMatch (normalizeCode c) = true
      · have hk : isKeptValid c = true := by rw [isKeptValid, h1f, h2]; rfl
        have hb : isBadCand c = false := by rw [isBadCand, h1f, h2]; rfl
        have hv : validNorms (c :: rest) =
            normalizeCode c :: validNorms rest := by
          rw [validNorms, validNorms, List.filter_cons_of_pos hk, List.map_cons]
        have hbn : badNorms (c :: rest) = badNorms rest := by
          rw [badNorms, badNorms, List.filter_cons_of_neg (by simp [hb])]
        by_cases h3 : normalizeCode c ∈ norm
        · simp only [parseLoop]
          rw [if_neg h1, if_neg (by simp [h2]), if_pos h3, ih, hv, hbn]
          simp only [dedupFrom]
          rw [if_pos h3]
        · simp only [parseLoop]
          rw [if_neg h1, if_neg (by simp [h2]), if_neg h3, ih, hv, hbn]
          simp only [dedupFrom]
          rw [if_neg h3, List.append_assoc, List.singleton_append]
      · have h2f : codePatternMatch (normalizeCode c) = false := by
          cases hh : codePatternMatch (normalizeCode c) with
          | false => rfl
          | true => exact absurd hh h2
        have hk : isKeptValid c = false := by
          rw [isKeptValid, h1f, h2f]
          rfl
        have hb : isBadCand c = true := by rw [isBadCand, h1f, h2f]; rfl
        have hv : validNorms (c :: rest) = validNorms rest := by
          rw [validNorms, validNorms, List.filter_cons_of_neg (by simp [hk])]
        have hbn : badNorms (c :: rest) =
            normalizeCode c :: badNorms rest := by
          rw [badNorms, badNorms, List.filter_cons_of_pos hb, List.map_cons]
        simp only [parseLoop]
        rw [if_neg h1, if_pos (by simp [h2f]), ih, hv, hbn,
          List.append_assoc, List.singleton_append]

/-- Filtering by a predicate that rejects blank-normalizing candidates
sees the same candidates in the code's `out` list and in the claims'
raw candidate list (the blob pre-filter only removes blanks). -/
theorem filter_outList_eq (ps : Option (List Str)) (blob : Option Str)
    (P : Str → Bool)
    (hP : ∀ c, P c = true → (normalizeCode c).isEmpty = false) :
    (outList ps blob).filter P = (rawCandidates ps blob).filter P := by
  have hP0 : P [] = false := by
    cases hPP : P [] with
    | false => rfl
    | true =>
      have := hP [] hPP
      exact absurd this (by decide)
  cases blob with
  | none => rfl
  | some b =>
    simp only [outList, rawCandidates]
    rw [List.filter_append, List.filter_append]
    congr 1
    by_cases hb : b.isEmpty = true
    · have hbnil : b = [] := List.isEmpty_iff.mp hb
      subst hbnil
      rw [if_pos hb]
      show ([] : List Str).filter P = (splitDelim []).filter P
      simp [splitDelim, splitGo, List.filter, hP0]
    · rw [if_neg hb, List.filter_filter]
      apply List.filter_congr
      intro c hc
      cases hPc : P c with
      | false => rfl
      | true =>
        have h1 := hP c hPc
        rw [normalizeCode_isEmpty] at h1
        have h2 : c.isEmpty = false := by
          cases c with
          | nil => exact absurd h1 (by simp [stripWs])
          | cons a t => rfl
        simp [h1, h2]

/-- An offending (grammar-invalid, non-blank) candidate has a non-blank
normalization. -/
theorem isBadCand_not_blank (c : Str) (hc : isBadCand c = true) :
    (normalizeCode c).isEmpty = false := by
  rw [isBadCand, Bool.and_eq_true] at hc
  cases hh : (normalizeCode c).isEmpty with
  | false => rfl
  | true => exact absurd hc.1 (by simp [hh])

/-- A kept (grammar-valid, non-blank) candidate has a non-blank
normalization. -/
theorem isKeptValid_not_blank (c : Str) (hc : isKeptValid c = true) :
    (normalizeCode c).isEmpty = false := by
  rw [isKeptValid, Bool.and_eq_true] at hc
  cases hh : (normalizeCode c).isEmpty with
  | false => rfl
  | true => exact absurd hc.1 (by simp [hh])

/-- The offending list is the same over `out` and over the raw candidates. -/
theorem badNorms_outList (ps : Option (List Str)) (blob : Option Str) :
    badNorms (outList ps blob) = badNorms (rawCandidates ps blob) := by
  rw [badNorms, badNorms, filter_outList_eq ps blob isBadCand isBadCand_not_blank]

/-- The valid list is the same over `out` and over the raw candidates. -/
theorem validNorms_outList (ps : Option (List Str)) (blob : Option Str) :
    validNorms (outList ps blob) = validNorms (rawCandidates ps blob) := by
  rw [validNorms, validNorms,
    filter_outList_eq ps blob isKeptValid isKeptValid_not_blank]

/-- Closed form of `_parse_codes` in terms of `out`, the offending list
and the deduplicated valid list. -/
theorem parse_codes_eq (ps : Option (List Str)) (blob : Option Str) :
    parse_codes ps blob =
      if (outList ps blob).isEmpty then .error .noCodesProvided
      else if !(badNorms (outList ps blob)).isEmpty then
        .error (.invalidCodesInBatch (badNorms (outList ps blob)))
      else if (dedupFrom [] (validNorms (outList ps blob))).isEmpty then
        .error .noValidCodes
      else .ok (dedupFrom [] (validNorms (outList ps blob))) := by
  simp only [parse_codes, parseLoop_spec, List.nil_append]

/-! ## Claim C2 -/

/-- Counterexample to claim C2 as stated: a single whitespace-only
repeated value makes the Python `out` list truthy, so `_parse_codes`
reaches the loop, skips the blank candidate, and fails with
`NoValidCodesAfterValidation` — not with `NoCodesProvided`. -/
theorem claim_C2_counterexample :
    parse_codes (some [strL " "]) none = .error .noValidCodes ∧
    parse_codes (some [strL " "]) none ≠ .error .noCodesProvided := by
  constructor
  · rfl
  · intro hcon
    have h1 : parse_codes (some [strL " "]) none = .error .noValidCodes := rfl
    rw [h1] at hcon
    exact ParseErr.noConfusion (Except.error.inj hcon)

/-- Claim C2 as amended: `parse` fails with `NoCodesProvided` exactly
when the collected `out` list is empty — no repeated values supplied and
the blob (if any) splits into only empty or whitespace-only parts; when
repeated values are supplied but every candidate normalizes to blank,
`parse` instead fails with `NoValidCodesAfterValidation`. -/
theorem claim_C2_amended (ps : Option (List Str)) (blob : Option Str) :
    (parse_codes ps blob = .error .noCodesProvided ↔ outList ps blob = []) ∧
    ((outList ps blob ≠ [] ∧
        ∀ c ∈ outList ps blob, (normalizeCode c).isEmpty = true) →
      parse_codes ps blob = .error .noValidCodes) := by
  constructor
  · rw [parse_codes_eq]
    constructor
    · intro h
      split_ifs at h with h1 h2 h3
      · exact List.isEmpty_iff.mp h1
      all_goals simp at h
    · intro h
      rw [if_pos (by rw [h]; rfl)]
  · rintro ⟨hne, hall⟩
    have hv : validNorms (outList ps blob) = [] := by
      rw [validNorms]
      have hfil : (outList ps blob).filter isKeptValid = [] := by
        rw [List.filter_eq_nil_iff]
        intro c hc
        have hblank := hall c hc
        intro hkeep
        rw [isKeptValid_not_blank c hkeep] at hblank
        exact Bool.noConfusion hblank
      rw [hfil]
      rfl
    have hbn : badNorms (outList ps blob) = [] := by
      rw [badNorms]
      have hfil : (outList ps blob).filter isBadCand = [] := by
        rw [List.filter_eq_nil_iff]
        intro c hc
        have hblank := hall c hc
        intro hbad
        rw [isBadCand_not_blank c hbad] at hblank
        exact Bool.noConfusion hblank
      rw [hfil]
      rfl
    rw [parse_codes_eq,
      if_neg (by simp [List.isEmpty_iff, hne]),
      if_neg (by simp [hbn]),
      if_pos (by rw [hv]; rfl)]

/-- Closed instances of the amended claim C2: the whitespace-only repeated
value gives `NoValidCodesAfterValidation`; absent sources give
`NoCodesProvided`. -/
theorem claim_C2_witness :
    parse_codes (some [strL " "]) none = .error .noValidCodes ∧
    parse_codes none none = .error .noCodesProvided := by
  constructor
  · exact (claim_C2_amended (some [strL " "]) none).2 ⟨by decide, by decide⟩
  · exact (claim_C2_amended none none).1.mpr rfl

/-! ## Claim C3 -/

/-- Claim C3: on success, `_parse_codes` returns exactly the normalized
valid candidates in order of first appearance — candidates being the
repeated values followed by the blob split on runs of comma/CR/LF, with
blank candidates dropped — deduplicated by normalized value with the
first occurrence winning. -/
theorem claim_C3 (ps : Option (List Str)) (blob : Option Str) (l : List Str)
    (h : parse_codes ps blob = .ok l) : l = refBatch ps blob := by
  rw [parse_codes_eq] at h
  split_ifs at h with h1 h2 h3 <;> simp at h
  rw [← h, validNorms_outList]
  rfl

/-- Closed instances of claim C3: the blob of the spec's example yields
its three codes in order, and the case-insensitive duplicate pair yields
a batch of length one. -/
theorem claim_C3_witness :
    [strL "I-MCE-1/25", strL "I-ABC-2/26", strL "I-XYZ-3/27"] =
      refBatch none (some (strL "I-MCE-1/25, I-ABC-2/26\nI-XYZ-3/27")) ∧
    [strL "I-MCE-1/25"] =
      refBatch (some [strL "i-mce-1/25", strL "I-MCE-1/25"]) none := by
  constructor
  · exact claim_C3 none (some (strL "I-MCE-1/25, I-ABC-2/26\nI-XYZ-3/27")) _ rfl
  · exact claim_C3 (some [strL "i-mce-1/25", strL "I-MCE-1/25"]) none _ rfl

/-! ## Claim C4 -/

/-- Claim C4: as soon as one candidate with a non-blank normalization
fails the grammar, `_parse_codes` fails with `InvalidCodesInBatch`
carrying the full list of offending normalized strings, even if other
candidates are valid — a partial batch is never returned. -/
theorem claim_C4 (ps : Option (List Str)) (blob : Option Str)
    (h : ∃ c ∈ rawCandidates ps blob, isBadCand c = true) :
    parse_codes ps blob =
      .error (.invalidCodesInBatch (badNorms (rawCandidates ps blob))) := by
  obtain ⟨c, hcmem, hcbad⟩ := h
  have hbad_ne : badNorms (rawCandidates ps blob) ≠ [] := by
    rw [badNorms]
    intro hnil
    rw [List.map_eq_nil_iff] at hnil
    have hmem : c ∈ (rawCandidates ps blob).filter isBadCand :=
      List.mem_filter.mpr ⟨hcmem, hcbad⟩
    rw [hnil] at hmem
    exact absurd hmem (List.not_mem_nil c)
  have heq := badNorms_outList ps blob
  have hbad_out : (badNorms (outList ps blob)).isEmpty = false := by
    rw [heq]
    cases hb2 : badNorms (rawCandidates ps blob) with
    | nil => exact absurd hb2 hbad_ne
    | cons a t => rfl
  have hout_ne : (outList ps blob).isEmpty = false := by
    cases hoo : outList ps blob with
    | nil =>
      exfalso
      apply hbad_ne
      rw [← heq, hoo]
      rfl
    | cons a t => rfl
  rw [parse_codes_eq, if_neg (by simp [hout_ne]), if_pos (by simp [hbad_out]),
    heq]

/-- Closed instance of claim C4: one valid and one invalid candidate fail
the whole batch, naming the normalized offender. -/
theorem claim_C4_witness :
    parse_codes (some [strL "I-MCE-1/25", strL "bad"]) none =
      .error (.invalidCodesInBatch [strL "BAD"]) := by
  have h := claim_C4 (some [strL "I-MCE-1/25", strL "bad"]) none
    ⟨strL "bad", by decide, by decide⟩
  rw [h]
  rfl

/-! ## Claim C9 -/

/-- Claim C9: the offending list reported by `InvalidCodesInBatch` is the
normalized invalid candidates in input order and with multiplicity — a
grammar-invalid candidate supplied `k` times is reported `k` times;
invalid candidates are not deduplicated (unlike valid ones). -/
theorem claim_C9 (ps : Option (List Str)) (blob : Option Str) (bs : List Str)
    (h : parse_codes ps blob = .error (.invalidCodesInBatch bs)) :
    bs = badNorms (rawCandidates ps blob) := by
  rw [parse_codes_eq] at h
  split_ifs at h with h1 h2 h3 <;> simp at h
  rw [← h]
  exact badNorms_outList ps blob

/-- Closed instance of claim C9: the same invalid candidate supplied
twice is reported twice. -/
theorem claim_C9_witness :
    [strL "BAD", strL "BAD"] =
      badNorms (rawCandidates (some [strL "bad", strL "bad"]) none) :=
  claim_C9 (some [strL "bad", strL "bad"]) none [strL "BAD", strL "BAD"] rfl

end BarcodeApi
